import Mathlib

/-!
# check_upstream_versions: drift detection between upstream and downstream streams

A shallow embedding of `check_upstream_versions.go`.

* Go strings are `String`; `strings.Split(s, "/")` is `stringsSplit`.
* A Go `map[string]string` is an association list with pairwise distinct keys
  (`GoMap`): indexing a missing key gives the zero value `""`, the comma-ok form
  gives an `Option`, and `range` visits the entries in an order chosen by the
  environment.
* The Docker daemon, the GitHub API and the map iteration order are an
  environment (`World`) whose answers may depend on everything that has happened
  so far (the `Trace` of external calls and log lines).
* `log.Fatal` and run-time panics end the run: they are the `Error` results of a
  `Run`, which always hands back the trace reached.
-/

namespace CheckUpstreamVersions

/-! ## Data model (lines 18-49) -/

/-- The embedded struct `Stream`; the Go field `Type` is spelled `StreamType`. -/
structure Stream where
  Name : String
  StreamType : String
  deriving DecidableEq, Repr

/-- The struct `DockerStream` with its embedded `Stream`. -/
structure DockerStream extends Stream where
  Image : String
  Tag : String
  Label : String
  deriving DecidableEq, Repr

/-- The struct `GitHubStream` with its embedded `Stream`. -/
structure GitHubStream extends Stream where
  Repo : String
  Branch : String
  deriving DecidableEq, Repr

/-- A value decoded by `encoding/json` into an `interface{}`; a number is kept as
its literal text. -/
inductive JsonValue where
  | null
  | bool (b : Bool)
  | number (literal : String)
  | string (s : String)
  | array (items : List JsonValue)
  | object (fields : List (String × JsonValue))

/-- A manifest source record, `map[string]interface{}`. -/
abbrev Record := List (String × JsonValue)

/-- The dynamic types stored in `Project.Upstreams` and `Project.Downstreams`. -/
inductive StreamValue where
  | docker (s : DockerStream)
  | github (s : GitHubStream)
  deriving DecidableEq, Repr

/-- The promoted field `stream.Name` in either arm of the type switch. -/
def StreamValue.Name : StreamValue → String
  | .docker s => s.Name
  | .github s => s.Name

/-- The struct `Project`. -/
structure Project where
  Name : String
  ProjectType : String
  Branch : String
  BuildWorkflow : String
  JsonUpstreams : List Record
  JsonDownstreams : List Record
  Upstreams : List StreamValue
  Downstreams : List StreamValue

/-- The struct `Projects`. -/
abbrev Projects := List Project

/-! ## Go maps and strings -/

/-- A Go `map[string]string`: entries with pairwise distinct keys. -/
abbrev GoMap := List (String × String)

/-- The comma-ok lookup `v, ok := m[k]`. -/
def GoMap.lookup (m : GoMap) (k : String) : Option String :=
  match m with
  | [] => none
  | (k', v) :: rest => if k' = k then some v else GoMap.lookup rest k

/-- The plain index expression `m[k]`: the zero value `""` for a missing key. -/
def GoMap.index (m : GoMap) (k : String) : String :=
  (GoMap.lookup m k).getD ""

/-- The assignment `m[k] = v`. -/
def GoMap.set (m : GoMap) (k v : String) : GoMap :=
  match m with
  | [] => [(k, v)]
  | (k', v') :: rest => if k' = k then (k, v) :: rest else (k', v') :: GoMap.set rest k v

/-- The keys of a map. -/
def GoMap.keys (m : GoMap) : List String := m.map Prod.fst

/-- Splitting a character sequence at every occurrence of `sep`. -/
def splitChars (sep : Char) : List Char → List (List Char)
  | [] => [[]]
  | c :: cs =>
    if c = sep then [] :: splitChars sep cs
    else
      match splitChars sep cs with
      | [] => [[c]]
      | part :: parts => (c :: part) :: parts

/-- The call `strings.Split(s, "/")`. -/
def stringsSplit (s : String) : List String :=
  (splitChars '/' s.data).map String.mk

/-- How a run ends early: `log.Fatal(e)` or a run-time panic. -/
inductive Error where
  | fatal (e : String)
  | indexOutOfRange (index length : Nat)
  deriving DecidableEq, Repr

/-- The index expression `xs[i]` on a slice of strings, panicking out of range. -/
def sliceIndex (xs : List String) (i : Nat) : Except Error String :=
  match xs.get? i with
  | some x => .ok x
  | none => .error (.indexOutOfRange i xs.length)

/-- The function `check` (lines 51-55): `log.Fatal` on a non-nil error. -/
def check {α : Type} (r : Except String α) : Except Error α :=
  match r with
  | .ok a => .ok a
  | .error e => .error (.fatal e)

/-! ## The environment -/

/-- What the program does to the outside world, in order. -/
inductive Event where
  | newDockerClient
  | imagePull (imageString : String)
  | imageInspect (imageString : String)
  | logLabelNotFound (label imageString : String)
  | getBranch (owner repo branch : String)
  | workflowDispatch (owner repo workflow ref : String)
  | logResponse (resp : String)
  | logNoUpdate
  deriving DecidableEq, Repr

/-- The history of a run. -/
abbrev Trace := List Event

/-- A computation that may end the run: it returns the trace reached and either a
value or the error that stopped it. -/
abbrev Run (α : Type) := Trace → Trace × Except Error α

/-- The libraries and services the program calls. Every answer of a service may
depend on the history so far. `Open`, `ReadAll`, `Unmarshal` and `Marshal` are the
calls of `readStreamsJson` whose error is passed to `check`; the two decoders are
`json.Unmarshal` into a `DockerStream` and a `GitHubStream`, whose error the
program ignores. `ImageInspectWithRaw` answers with `Config.Labels`, `GetBranch`
with `GetCommit().GetSHA()` of the branch. `rangeOrder` is the order in which a
`range` over a map visits its entries. -/
structure World where
  Open : String → Except String String
  ReadAll : String → Except String String
  Unmarshal : String → Except String Projects
  Marshal : Record → Except String String
  UnmarshalDockerStream : String → DockerStream
  UnmarshalGitHubStream : String → GitHubStream
  NewClientWithOpts : Trace → Except String Unit
  ImagePull : Trace → String → Except String Unit
  ImageInspectWithRaw : Trace → String → Except String GoMap
  GetBranch : Trace → String → String → String → Except String String
  CreateWorkflowDispatchEventByFileName :
    Trace → String → String → String → String → Except String String
  rangeOrder : Trace → GoMap → GoMap
  rangeOrder_perm : ∀ t m, (rangeOrder t m).Perm m

/-! ## readStreamsJson (lines 57-111) -/

/-- The index expression `record[k]` on a `map[string]interface{}`. -/
def Record.index (r : Record) (k : String) : Option JsonValue :=
  match r with
  | [] => none
  | (k', v) :: rest => if k' = k then some v else Record.index rest k

/-- The comparison `record[k] == "lit"` of an interface value with a string
constant: true exactly for a string value equal to the constant. -/
def interfaceEqString (v : Option JsonValue) (lit : String) : Bool :=
  match v with
  | some (.string s) => decide (s = lit)
  | _ => false

/-- The inner loops of `readStreamsJson` (lines 73-87 and 90-104), appending to
the slice `streams`. -/
def readStreams (w : World) : List Record → List StreamValue → Except Error (List StreamValue)
  | [], streams => .ok streams
  | record :: rest, streams =>
    if interfaceEqString (Record.index record "type") "docker" then
      match check (w.Marshal record) with
      | .error e => .error e
      | .ok newJson =>
        readStreams w rest (streams ++ [.docker (w.UnmarshalDockerStream newJson)])
    else if interfaceEqString (Record.index record "type") "github" then
      match check (w.Marshal record) with
      | .error e => .error e
      | .ok newJson =>
        readStreams w rest (streams ++ [.github (w.UnmarshalGitHubStream newJson)])
    else readStreams w rest streams

/-- The outer loop of `readStreamsJson` (lines 70-108), appending to
`parsedProjects.Projects`. -/
def readProjects (w : World) : List Project → Projects → Except Error Projects
  | [], parsedProjects => .ok parsedProjects
  | project :: rest, parsedProjects =>
    match readStreams w project.JsonUpstreams [] with
    | .error e => .error e
    | .ok upstreams =>
      match readStreams w project.JsonDownstreams [] with
      | .error e => .error e
      | .ok downstreams =>
        readProjects w rest
          (parsedProjects ++ [{ project with Upstreams := upstreams, Downstreams := downstreams }])

/-- The function `readStreamsJson`. -/
def readStreamsJson (w : World) (filename : String) : Except Error Projects :=
  match check (w.Open filename) with
  | .error e => .error e
  | .ok jsonFile =>
    match check (w.ReadAll jsonFile) with
    | .error e => .error e
    | .ok byteValue =>
      match check (w.Unmarshal byteValue) with
      | .error e => .error e
      | .ok projects => readProjects w projects []

/-! ## Resolution (lines 113-147) -/

/-- The method `DockerStream.inspectDockerImageLabel`. -/
def DockerStream.inspectDockerImageLabel (w : World) (image : DockerStream) : Run String :=
  fun t =>
    let imageString := image.Image ++ ":" ++ image.Tag
    let t1 := t ++ [.newDockerClient]
    match check (w.NewClientWithOpts t) with
    | .error e => (t1, .error e)
    | .ok _ =>
      let t2 := t1 ++ [.imagePull imageString]
      match check (w.ImagePull t1 imageString) with
      | .error e => (t2, .error e)
      | .ok _ =>
        let t3 := t2 ++ [.imageInspect imageString]
        match check (w.ImageInspectWithRaw t2 imageString) with
        | .error e => (t3, .error e)
        | .ok labels =>
          match GoMap.lookup labels image.Label with
          | some labelValue => (t3, .ok labelValue)
          | none => (t3 ++ [.logLabelNotFound image.Label imageString], .ok "")

/-- The method `GitHubStream.getLatestGitHubCommit`. -/
def GitHubStream.getLatestGitHubCommit (w : World) (repo : GitHubStream) : Run String :=
  fun t =>
    let repo_info := stringsSplit repo.Repo
    match sliceIndex repo_info 0 with
    | .error e => (t, .error e)
    | .ok repo_owner =>
      match sliceIndex repo_info 1 with
      | .error e => (t, .error e)
      | .ok repo_name =>
        let t1 := t ++ [.getBranch repo_owner repo_name repo.Branch]
        match check (w.GetBranch t repo_owner repo_name repo.Branch) with
        | .error e => (t1, .error e)
        | .ok sha => (t1, .ok sha)

/-! ## main (lines 149-194) -/

/-- The type switch of lines 155-160 and 164-169: the identifier a stream
resolves to. -/
def resolveStream (w : World) : StreamValue → Run String
  | .docker stream => stream.inspectDockerImageLabel w
  | .github stream => stream.getLatestGitHubCommit w

/-- The loops of lines 154-161 and 163-170: every stream is resolved in order and
written to the map under its name. -/
def resolveRefs (w : World) : List StreamValue → GoMap → Run GoMap
  | [], refs => fun t => (t, .ok refs)
  | stream :: rest, refs => fun t =>
    match resolveStream w stream t with
    | (t1, .error e) => (t1, .error e)
    | (t1, .ok ref) => resolveRefs w rest (GoMap.set refs stream.Name ref) t1

/-- The comparison loop of lines 172-177 over the entries of `upstreamRefs` in
the order `entries`. -/
def updateNeeded (entries : GoMap) (downstreamRefs : GoMap) : Bool :=
  entries.foldl
    (fun acc entry => if GoMap.index downstreamRefs entry.1 ≠ entry.2 then true else acc)
    false

/-- Lines 153-177 for one project: both maps are built, then compared. The
result `true` is the decision NeedsRebuild, `false` is NoActionNeeded. -/
def detect (w : World) (project : Project) : Run Bool :=
  fun t =>
    match resolveRefs w project.Upstreams [] t with
    | (t1, .error e) => (t1, .error e)
    | (t1, .ok upstreamRefs) =>
      match resolveRefs w project.Downstreams [] t1 with
      | (t2, .error e) => (t2, .error e)
      | (t2, .ok downstreamRefs) =>
        (t2, .ok (updateNeeded (w.rangeOrder t2 upstreamRefs) downstreamRefs))

/-- Lines 178-192 for one project: the workflow dispatch, or the log line. -/
def trigger (w : World) (project : Project) (needed : Bool) : Run Unit :=
  fun t =>
    if needed then
      let projectInfo := stringsSplit project.Name
      match sliceIndex projectInfo 0 with
      | .error e => (t, .error e)
      | .ok owner =>
        match sliceIndex projectInfo 1 with
        | .error e => (t, .error e)
        | .ok repo =>
          let t1 := t ++ [.workflowDispatch owner repo project.BuildWorkflow project.Branch]
          match check (w.CreateWorkflowDispatchEventByFileName t owner repo
              project.BuildWorkflow project.Branch) with
          | .error e => (t1, .error e)
          | .ok resp => (t1 ++ [.logResponse resp], .ok ())
    else (t ++ [.logNoUpdate], .ok ())

/-- The body of the loop of line 152 for one project. -/
def processProject (w : World) (project : Project) : Run Unit :=
  fun t =>
    match detect w project t with
    | (t1, .error e) => (t1, .error e)
    | (t1, .ok needed) => trigger w project needed t1

/-- The loop of line 152 over the parsed projects. -/
def processProjects (w : World) : List Project → Run Unit
  | [] => fun t => (t, .ok ())
  | project :: rest => fun t =>
    match processProject w project t with
    | (t1, .error e) => (t1, .error e)
    | (t1, .ok _) => processProjects w rest t1

/-- The function `main`. -/
def main (w : World) : Run Unit :=
  fun t =>
    match readStreamsJson w "streams.json" with
    | .error e => (t, .error e)
    | .ok projects => processProjects w projects t

/-! ## Observable outcomes -/

/-- The events that show a decision was reached or a rebuild was triggered. -/
def Event.isOutcome : Event → Bool
  | .workflowDispatch _ _ _ _ => true
  | .logResponse _ => true
  | .logNoUpdate => true
  | _ => false

/-- The workflow-dispatch calls. -/
def Event.isDispatch : Event → Bool
  | .workflowDispatch _ _ _ _ => true
  | _ => false

/-! ## The collections `readStreamsJson` is to build -/

/-- A record whose `"type"` is the string `docker` or the string `github`. -/
def Record.recognised (record : Record) : Bool :=
  interfaceEqString (Record.index record "type") "docker" ||
    interfaceEqString (Record.index record "type") "github"

/-- The entry a recognised record stands for: a `DockerStream` decoded from the
record for type `docker`, a `GitHubStream` for type `github`. -/
def EntryOf (w : World) (record : Record) (stream : StreamValue) : Prop :=
  (Record.index record "type" = some (.string "docker") ∧
      ∃ newJson, w.Marshal record = .ok newJson ∧
        stream = .docker (w.UnmarshalDockerStream newJson)) ∨
    (Record.index record "type" = some (.string "github") ∧
      ∃ newJson, w.Marshal record = .ok newJson ∧
        stream = .github (w.UnmarshalGitHubStream newJson))

/-- A collection holding one entry per recognised record, in the records' order,
and nothing else. -/
def CollectionOf (w : World) (records : List Record) (streams : List StreamValue) : Prop :=
  List.Forall₂ (EntryOf w) (records.filter Record.recognised) streams

/-- A parsed project: the manifest project with both collections filled in. -/
def ParsedFrom (w : World) (project parsed : Project) : Prop :=
  parsed.Name = project.Name ∧ parsed.ProjectType = project.ProjectType ∧
    parsed.Branch = project.Branch ∧ parsed.BuildWorkflow = project.BuildWorkflow ∧
    CollectionOf w project.JsonUpstreams parsed.Upstreams ∧
    CollectionOf w project.JsonDownstreams parsed.Downstreams

/-! ## Example environments and projects -/

/-- An environment in which every call succeeds: each inspected image carries the
label set `labels`, the tip of every branch of repository `repo` is `tip repo`,
and a map is ranged over in insertion order. The codec writes a record as the
text of its `"name"` field. -/
def exampleWorld (labels : GoMap) (tip : String → String) : World where
  Open := fun _ => .ok "streams.json"
  ReadAll := fun _ => .ok "bytes"
  Unmarshal := fun _ => .ok []
  Marshal := fun record =>
    match Record.index record "name" with
    | some (.string s) => .ok s
    | _ => .ok ""
  UnmarshalDockerStream := fun newJson =>
    { Name := newJson, StreamType := "docker", Image := "x", Tag := "1", Label := "rev" }
  UnmarshalGitHubStream := fun newJson =>
    { Name := newJson, StreamType := "github", Repo := "o/r", Branch := "main" }
  NewClientWithOpts := fun _ => .ok ()
  ImagePull := fun _ _ => .ok ()
  ImageInspectWithRaw := fun _ _ => .ok labels
  GetBranch := fun _ _ repo _ => .ok (tip repo)
  CreateWorkflowDispatchEventByFileName := fun _ _ _ _ _ => .ok "204 No Content"
  rangeOrder := fun _ m => m
  rangeOrder_perm := fun _ _ => List.Perm.refl _

/-- A Docker source named `name`: image `x:1`, label `rev`. -/
def dockerSource (name : String) : StreamValue :=
  .docker { Name := name, StreamType := "docker", Image := "x", Tag := "1", Label := "rev" }

/-- A GitHub source named `name` on branch `main` of `repo`. -/
def githubSource (name repo : String) : StreamValue :=
  .github { Name := name, StreamType := "github", Repo := repo, Branch := "main" }

/-- The project `o/p` with the given resolved collections. -/
def exampleProject (upstreams downstreams : List StreamValue) : Project where
  Name := "o/p"
  ProjectType := "docker"
  Branch := "main"
  BuildWorkflow := "build.yml"
  JsonUpstreams := []
  JsonDownstreams := []
  Upstreams := upstreams
  Downstreams := downstreams

/-- The three calls made to inspect image `x:1`. -/
def inspectEvents : Trace :=
  [.newDockerClient, .imagePull "x:1", .imageInspect "x:1"]

/-- The resolution used in the example below: a Docker source resolves to `q`, a
GitHub source to the name of its repository. -/
def exampleResolution : StreamValue → String
  | .docker _ => "q"
  | .github s => if s.Repo = "o/r" then "r" else "q"

/-- A manifest of three projects; the second tracks one GitHub upstream. -/
def exampleManifest : Projects :=
  [exampleProject [] [],
    { exampleProject [] [] with
      JsonUpstreams := [[("type", .string "github"), ("name", .string "base")]] },
    exampleProject [] []]

/-- The second project of `exampleManifest` as `readStreamsJson` returns it. -/
def exampleTracked : Project :=
  { exampleProject [githubSource "base" "o/r"] [] with
    JsonUpstreams := [[("type", .string "github"), ("name", .string "base")]] }

/-- An environment that reads `exampleManifest` and in which no branch exists. -/
def brokenWorld : World :=
  { exampleWorld [] (fun repo => repo) with
    Unmarshal := fun _ => .ok exampleManifest
    GetBranch := fun _ _ _ _ => .error "404 Not Found" }

/-- A manifest with one project whose upstream records are of type `unknown`,
`docker`, a number, and `github`, and whose only downstream record has no type. -/
def scenarioManifest : Projects :=
  [{ exampleProject [] [] with
      JsonUpstreams :=
        [[("type", .string "unknown"), ("name", .string "stray")],
          [("type", .string "docker"), ("name", .string "base")],
          [("type", .number "5"), ("name", .string "five")],
          [("type", .string "github"), ("name", .string "source")]]
      JsonDownstreams := [[("name", .string "untyped")]] }]

/-- An environment that reads `scenarioManifest`. -/
def scenarioWorld : World :=
  { exampleWorld [] (fun repo => repo) with Unmarshal := fun _ => .ok scenarioManifest }

/-! ## Facts about Go maps -/

theorem GoMap.lookup_set_self (m : GoMap) (k v : String) :
    GoMap.lookup (GoMap.set m k v) k = some v := by
  induction m with
  | nil => simp [GoMap.set, GoMap.lookup]
  | cons e rest ih =>
    obtain ⟨k', v'⟩ := e
    by_cases h : k' = k
    · simp [GoMap.set, GoMap.lookup, h]
    · simp [GoMap.set, GoMap.lookup, h, ih]

theorem GoMap.lookup_set_ne (m : GoMap) (k v n : String) (hn : n ≠ k) :
    GoMap.lookup (GoMap.set m k v) n = GoMap.lookup m n := by
  induction m with
  | nil =>
    have : ¬ k = n := fun h => hn h.symm
    simp [GoMap.set, GoMap.lookup, this]
  | cons e rest ih =>
    obtain ⟨k', v'⟩ := e
    by_cases h : k' = k
    · have : ¬ k = n := fun h => hn h.symm
      simp [GoMap.set, GoMap.lookup, h, this]
    · by_cases h2 : k' = n
      · subst h2
        simp [GoMap.set, GoMap.lookup, h]
      · simp [GoMap.set, GoMap.lookup, h, h2, ih]

theorem GoMap.mem_keys_set (m : GoMap) (k v n : String) :
    n ∈ GoMap.keys (GoMap.set m k v) ↔ n = k ∨ n ∈ GoMap.keys m := by
  induction m with
  | nil => simp [GoMap.set, GoMap.keys]
  | cons e rest ih =>
    obtain ⟨k', v'⟩ := e
    by_cases h : k' = k
    · subst h
      simp [GoMap.set, GoMap.keys]
    · have ih2 : n ∈ List.map Prod.fst (GoMap.set rest k v) ↔ n = k ∨ n ∈ List.map Prod.fst rest := ih
      simp only [GoMap.set, GoMap.keys, h, if_false, List.map_cons, List.mem_cons, ih2]
      tauto

theorem GoMap.nodup_keys_set (m : GoMap) (k v : String) (h : (GoMap.keys m).Nodup) :
    (GoMap.keys (GoMap.set m k v)).Nodup := by
  induction m with
  | nil => simp [GoMap.set, GoMap.keys]
  | cons e rest ih =>
    obtain ⟨k', v'⟩ := e
    have h2 : k' ∉ GoMap.keys rest ∧ (GoMap.keys rest).Nodup := by
      simpa [GoMap.keys] using h
    by_cases hk : k' = k
    · subst hk
      simpa [GoMap.set, GoMap.keys] using h
    · have hmem : k' ∉ GoMap.keys (GoMap.set rest k v) := by
        rw [GoMap.mem_keys_set]
        rintro (h3 | h3)
        · exact hk h3
        · exact h2.1 h3
      have hnd := ih h2.2
      simp only [GoMap.set, hk, if_false]
      exact List.nodup_cons.mpr ⟨hmem, hnd⟩

theorem GoMap.lookup_eq_none_iff (m : GoMap) (n : String) :
    GoMap.lookup m n = none ↔ n ∉ GoMap.keys m := by
  induction m with
  | nil => simp [GoMap.lookup, GoMap.keys]
  | cons e rest ih =>
    obtain ⟨k', v'⟩ := e
    have ih2 : GoMap.lookup rest n = none ↔ n ∉ List.map Prod.fst rest := ih
    by_cases h : k' = n
    · simp [GoMap.lookup, GoMap.keys, h]
    · have h2 : ¬ n = k' := fun h3 => h h3.symm
      simp only [GoMap.lookup, GoMap.keys, h, h2, if_false, List.map_cons, List.mem_cons,
        false_or, ih2]

theorem GoMap.mem_keys_iff_lookup (m : GoMap) (n : String) :
    n ∈ GoMap.keys m ↔ ∃ v, GoMap.lookup m n = some v := by
  have h := GoMap.lookup_eq_none_iff m n
  cases hl : GoMap.lookup m n with
  | none => simp [hl] at h; simp [h]
  | some v => simp [hl] at h; simp [h]

theorem GoMap.mem_iff_lookup (m : GoMap) (h : (GoMap.keys m).Nodup) (n v : String) :
    (n, v) ∈ m ↔ GoMap.lookup m n = some v := by
  induction m with
  | nil => simp [GoMap.lookup]
  | cons e rest ih =>
    obtain ⟨k', v'⟩ := e
    have h2 : k' ∉ GoMap.keys rest ∧ (GoMap.keys rest).Nodup := by
      simpa [GoMap.keys] using h
    by_cases hk : k' = n
    · subst hk
      have : (k', v) ∉ rest := fun hm => h2.1 (List.mem_map_of_mem Prod.fst hm)
      simp only [GoMap.lookup, if_true, List.mem_cons, Prod.mk.injEq, true_and, this, or_false,
        Option.some.injEq]
      exact eq_comm
    · have hk2 : ¬ n = k' := fun h3 => hk h3.symm
      simp only [GoMap.lookup, hk, if_false, List.mem_cons, Prod.mk.injEq, hk2, false_and,
        false_or]
      exact ih h2.2

theorem GoMap.index_of_lookup (m : GoMap) (n v : String) (h : GoMap.lookup m n = some v) :
    GoMap.index m n = v := by
  simp [GoMap.index, h]

theorem GoMap.index_of_not_mem (m : GoMap) (n : String) (h : n ∉ GoMap.keys m) :
    GoMap.index m n = "" := by
  have := (GoMap.lookup_eq_none_iff m n).mpr h
  simp [GoMap.index, this]

/-! ## Facts about the comparison loop -/

theorem updateNeeded_fold (downstreamRefs : GoMap) (entries : GoMap) (acc : Bool) :
    entries.foldl
        (fun acc entry =>
          if GoMap.index downstreamRefs entry.1 ≠ entry.2 then true else acc) acc = true ↔
      acc = true ∨ ∃ entry ∈ entries, GoMap.index downstreamRefs entry.1 ≠ entry.2 := by
  induction entries generalizing acc with
  | nil => simp
  | cons e rest ih =>
    rw [List.foldl_cons, ih]
    by_cases h : GoMap.index downstreamRefs e.1 ≠ e.2
    · rw [if_pos h]
      simp only [true_or, true_iff]
      exact Or.inr ⟨e, List.mem_cons_self _ _, h⟩
    · rw [if_neg h]
      simp only [List.mem_cons]
      constructor
      · rintro (h1 | ⟨x, hx, hne⟩)
        · exact Or.inl h1
        · exact Or.inr ⟨x, Or.inr hx, hne⟩
      · rintro (h1 | ⟨x, hx | hx, hne⟩)
        · exact Or.inl h1
        · subst hx; exact absurd hne h
        · exact Or.inr ⟨x, hx, hne⟩

theorem updateNeeded_iff (entries downstreamRefs : GoMap) :
    updateNeeded entries downstreamRefs = true ↔
      ∃ entry ∈ entries, GoMap.index downstreamRefs entry.1 ≠ entry.2 := by
  unfold updateNeeded
  rw [updateNeeded_fold]
  simp

theorem updateNeeded_perm (entries entries' downstreamRefs : GoMap)
    (h : entries'.Perm entries) :
    updateNeeded entries' downstreamRefs = updateNeeded entries downstreamRefs := by
  rw [Bool.eq_iff_iff, updateNeeded_iff, updateNeeded_iff]
  constructor
  · rintro ⟨e, he, hne⟩
    exact ⟨e, h.mem_iff.mp he, hne⟩
  · rintro ⟨e, he, hne⟩
    exact ⟨e, h.mem_iff.mpr he, hne⟩

/-! ## Facts about the resolution loops -/

theorem resolveRefs_cons_ok (w : World) (stream : StreamValue) (rest : List StreamValue)
    (refs : GoMap) (t t1 : Trace) (ref : String)
    (h : resolveStream w stream t = (t1, .ok ref)) :
    resolveRefs w (stream :: rest) refs t =
      resolveRefs w rest (GoMap.set refs stream.Name ref) t1 := by
  simp only [resolveRefs, h]

theorem resolveRefs_cons_error (w : World) (stream : StreamValue) (rest : List StreamValue)
    (refs : GoMap) (t t1 : Trace) (e : Error)
    (h : resolveStream w stream t = (t1, .error e)) :
    resolveRefs w (stream :: rest) refs t = (t1, .error e) := by
  simp only [resolveRefs, h]

/-- A successful loop over `stream :: rest` resolved `stream` first. -/
theorem resolveRefs_cons_inv (w : World) (stream : StreamValue) (rest : List StreamValue)
    (refs m : GoMap) (t t' : Trace)
    (h : resolveRefs w (stream :: rest) refs t = (t', .ok m)) :
    ∃ t1 ref, resolveStream w stream t = (t1, .ok ref) ∧
      resolveRefs w rest (GoMap.set refs stream.Name ref) t1 = (t', .ok m) := by
  rcases hs : resolveStream w stream t with ⟨t1, r⟩
  cases r with
  | error e =>
    rw [resolveRefs_cons_error w stream rest refs t t1 e hs] at h
    simp at h
  | ok ref =>
    rw [resolveRefs_cons_ok w stream rest refs t t1 ref hs] at h
    exact ⟨t1, ref, rfl, h⟩

/-- A successful loop over `before ++ after` is a successful loop over `before`
followed by one over `after`. -/
theorem resolveRefs_append_inv (w : World) (before after : List StreamValue)
    (refs m : GoMap) (t t' : Trace)
    (h : resolveRefs w (before ++ after) refs t = (t', .ok m)) :
    ∃ t0 m0, resolveRefs w before refs t = (t0, .ok m0) ∧
      resolveRefs w after m0 t0 = (t', .ok m) := by
  induction before generalizing refs t with
  | nil => exact ⟨t, refs, rfl, h⟩
  | cons s rest ih =>
    obtain ⟨t1, ref, hs, hrest⟩ := resolveRefs_cons_inv w s (rest ++ after) refs m t t' h
    obtain ⟨t0, m0, h0, h1⟩ := ih _ _ hrest
    refine ⟨t0, m0, ?_, h1⟩
    rw [resolveRefs_cons_ok w s rest refs t t1 ref hs]
    exact h0

theorem resolveRefs_mem_keys (w : World) (streams : List StreamValue) (refs m : GoMap)
    (t t' : Trace) (h : resolveRefs w streams refs t = (t', .ok m)) (n : String) :
    n ∈ GoMap.keys m ↔ n ∈ GoMap.keys refs ∨ n ∈ streams.map StreamValue.Name := by
  induction streams generalizing refs t with
  | nil =>
    simp only [resolveRefs, Prod.mk.injEq, Except.ok.injEq] at h
    simp [h.2]
  | cons s rest ih =>
    obtain ⟨t1, ref, _, hrest⟩ := resolveRefs_cons_inv w s rest refs m t t' h
    rw [ih _ _ hrest, GoMap.mem_keys_set]
    simp only [List.map_cons, List.mem_cons]
    tauto

theorem resolveRefs_nodup (w : World) (streams : List StreamValue) (refs m : GoMap)
    (t t' : Trace) (h : resolveRefs w streams refs t = (t', .ok m))
    (hnd : (GoMap.keys refs).Nodup) : (GoMap.keys m).Nodup := by
  induction streams generalizing refs t with
  | nil =>
    simp only [resolveRefs, Prod.mk.injEq, Except.ok.injEq] at h
    rw [← h.2]; exact hnd
  | cons s rest ih =>
    obtain ⟨t1, ref, _, hrest⟩ := resolveRefs_cons_inv w s rest refs m t t' h
    exact ih _ _ hrest (GoMap.nodup_keys_set refs s.Name ref hnd)

/-- Streams with other names leave the entry of `n` alone. -/
theorem resolveRefs_lookup_other (w : World) (streams : List StreamValue) (refs m : GoMap)
    (t t' : Trace) (h : resolveRefs w streams refs t = (t', .ok m)) (n : String)
    (hn : ∀ s ∈ streams, s.Name ≠ n) :
    GoMap.lookup m n = GoMap.lookup refs n := by
  induction streams generalizing refs t with
  | nil =>
    simp only [resolveRefs, Prod.mk.injEq, Except.ok.injEq] at h
    rw [h.2]
  | cons s rest ih =>
    obtain ⟨t1, ref, _, hrest⟩ := resolveRefs_cons_inv w s rest refs m t t' h
    rw [ih _ _ hrest (fun s' hs' => hn s' (List.mem_cons_of_mem _ hs'))]
    exact GoMap.lookup_set_ne refs s.Name ref n (fun hc => hn s (List.mem_cons_self _ _) hc.symm)

/-- What `detect` returns once both maps are built, for any iteration order. -/
theorem detect_of_refs (w : World) (p : Project) (t t1 t2 : Trace) (U D : GoMap)
    (hU : resolveRefs w p.Upstreams [] t = (t1, .ok U))
    (hD : resolveRefs w p.Downstreams [] t1 = (t2, .ok D)) :
    detect w p t = (t2, .ok (updateNeeded U D)) := by
  simp only [detect, hU, hD]
  rw [updateNeeded_perm U (w.rangeOrder t2 U) D (w.rangeOrder_perm t2 U)]

/-- The decision in terms of the two mappings: some upstream entry is not what
indexing the downstream map gives. -/
theorem updateNeeded_iff_lookup (U D : GoMap) (hnd : (GoMap.keys U).Nodup) :
    updateNeeded U D = true ↔
      ∃ n u, GoMap.lookup U n = some u ∧ GoMap.index D n ≠ u := by
  rw [updateNeeded_iff]
  constructor
  · rintro ⟨⟨n, u⟩, he, hne⟩
    exact ⟨n, u, (GoMap.mem_iff_lookup U hnd n u).mp he, hne⟩
  · rintro ⟨n, u, hl, hne⟩
    exact ⟨(n, u), (GoMap.mem_iff_lookup U hnd n u).mpr hl, hne⟩

/-! ## The drift decision (C1, C2, C3) -/

/-- C1: when every name of the upstream mapping is a key of the downstream
mapping, `detect` returns NeedsRebuild exactly when some name has an upstream
identifier different from its downstream identifier; so one differing pair is
enough whatever the other pairs are, and all pairs equal gives NoActionNeeded. -/
theorem drift_decision_on_paired_names (w : World) (p : Project) (t t1 t2 : Trace)
    (U D : GoMap)
    (hU : resolveRefs w p.Upstreams [] t = (t1, .ok U))
    (hD : resolveRefs w p.Downstreams [] t1 = (t2, .ok D))
    (hpaired : ∀ n ∈ GoMap.keys U, n ∈ GoMap.keys D) :
    ∃ needed, detect w p t = (t2, .ok needed) ∧
      (needed = true ↔
        ∃ n u d, GoMap.lookup U n = some u ∧ GoMap.lookup D n = some d ∧ u ≠ d) ∧
      ((∀ n u d, GoMap.lookup U n = some u → GoMap.lookup D n = some d → u = d) →
        needed = false) := by
  have hnd : (GoMap.keys U).Nodup :=
    resolveRefs_nodup w p.Upstreams [] U t t1 hU (by simp [GoMap.keys])
  have hiff : updateNeeded U D = true ↔
      ∃ n u d, GoMap.lookup U n = some u ∧ GoMap.lookup D n = some d ∧ u ≠ d := by
    rw [updateNeeded_iff_lookup U D hnd]
    constructor
    · rintro ⟨n, u, hu, hne⟩
      have hk : n ∈ GoMap.keys D :=
        hpaired n ((GoMap.mem_keys_iff_lookup U n).mpr ⟨u, hu⟩)
      obtain ⟨d, hd⟩ := (GoMap.mem_keys_iff_lookup D n).mp hk
      rw [GoMap.index_of_lookup D n d hd] at hne
      exact ⟨n, u, d, hu, hd, fun h => hne h.symm⟩
    · rintro ⟨n, u, d, hu, hd, hne⟩
      refine ⟨n, u, hu, ?_⟩
      rw [GoMap.index_of_lookup D n d hd]
      exact fun h => hne h.symm
  refine ⟨updateNeeded U D, detect_of_refs w p t t1 t2 U D hU hD, hiff, ?_⟩
  intro hall
  cases hb : updateNeeded U D with
  | false => rfl
  | true =>
    obtain ⟨n, u, d, hu, hd, hne⟩ := hiff.mp hb
    exact absurd (hall n u d hu hd) hne

/-- Scenario B: upstream `base` resolves to `abc`, downstream `base` to `def`. -/
theorem drift_decision_on_paired_names_witness :
    ∃ needed,
      detect (exampleWorld [("rev", "abc")] (fun _ => "def"))
          (exampleProject [dockerSource "base"] [githubSource "base" "o/r"]) [] =
        (inspectEvents ++ [.getBranch "o" "r" "main"], .ok needed) ∧
      (needed = true ↔
        ∃ n u d, GoMap.lookup [("base", "abc")] n = some u ∧
          GoMap.lookup [("base", "def")] n = some d ∧ u ≠ d) ∧
      ((∀ n u d, GoMap.lookup [("base", "abc")] n = some u →
          GoMap.lookup [("base", "def")] n = some d → u = d) → needed = false) :=
  drift_decision_on_paired_names (exampleWorld [("rev", "abc")] (fun _ => "def"))
    (exampleProject [dockerSource "base"] [githubSource "base" "o/r"]) [] inspectEvents
    (inspectEvents ++ [.getBranch "o" "r" "main"]) [("base", "abc")] [("base", "def")]
    rfl rfl (by simp [GoMap.keys])

/-- C2, as stated, fails: upstream `base` is a Docker source whose image lacks
the label, so it resolves to the empty identifier; `base` is a key of the
upstream mapping and not of the (empty) downstream mapping, yet `detect` returns
NoActionNeeded. -/
theorem absent_downstream_empty_identifier_no_rebuild :
    resolveRefs (exampleWorld [] (fun _ => "abc")) [dockerSource "base"] [] [] =
        (inspectEvents ++ [.logLabelNotFound "rev" "x:1"], .ok [("base", "")]) ∧
      "base" ∈ GoMap.keys [("base", "")] ∧
      "base" ∉ GoMap.keys ([] : GoMap) ∧
      detect (exampleWorld [] (fun _ => "abc")) (exampleProject [dockerSource "base"] []) [] =
        (inspectEvents ++ [.logLabelNotFound "rev" "x:1"], .ok false) :=
  ⟨rfl, by simp [GoMap.keys], by simp [GoMap.keys], rfl⟩

/-- C2 (amended): a name that is a key of the upstream mapping with a non-empty
identifier and is not a key of the downstream mapping makes `detect` return
NeedsRebuild. -/
theorem absent_downstream_forces_rebuild (w : World) (p : Project) (t t1 t2 : Trace)
    (U D : GoMap)
    (hU : resolveRefs w p.Upstreams [] t = (t1, .ok U))
    (hD : resolveRefs w p.Downstreams [] t1 = (t2, .ok D))
    (n u : String) (hn : GoMap.lookup U n = some u) (habsent : n ∉ GoMap.keys D)
    (hne : u ≠ "") :
    detect w p t = (t2, .ok true) := by
  have hnd : (GoMap.keys U).Nodup :=
    resolveRefs_nodup w p.Upstreams [] U t t1 hU (by simp [GoMap.keys])
  have hb : updateNeeded U D = true := by
    rw [updateNeeded_iff_lookup U D hnd]
    refine ⟨n, u, hn, ?_⟩
    rw [GoMap.index_of_not_mem D n habsent]
    exact fun h => hne h.symm
  rw [detect_of_refs w p t t1 t2 U D hU hD, hb]

/-- Scenario C: upstream `base` resolves to `abc`, no downstream at all. -/
theorem absent_downstream_forces_rebuild_witness :
    detect (exampleWorld [("rev", "abc")] (fun _ => "abc"))
        (exampleProject [dockerSource "base"] []) [] = (inspectEvents, .ok true) :=
  absent_downstream_forces_rebuild (exampleWorld [("rev", "abc")] (fun _ => "abc"))
    (exampleProject [dockerSource "base"] []) [] inspectEvents inspectEvents
    [("base", "abc")] [] rfl rfl "base" "abc" rfl (by simp [GoMap.keys]) (by decide)

/-- C3, as stated, fails: upstream `base` and downstream `other` share no name,
yet `detect` returns NeedsRebuild, because indexing the downstream map at `base`
gives the empty identifier and the upstream identifier is `abc`. -/
theorem disjoint_names_can_need_rebuild :
    (∀ s ∈ [githubSource "base" "o/r"], ∀ s' ∈ [githubSource "other" "o/q"],
        StreamValue.Name s ≠ StreamValue.Name s') ∧
      detect (exampleWorld [] (fun _ => "abc"))
          (exampleProject [githubSource "base" "o/r"] [githubSource "other" "o/q"]) [] =
        ([.getBranch "o" "r" "main", .getBranch "o" "q" "main"], .ok true) :=
  ⟨by simp [githubSource, StreamValue.Name], rfl⟩

/-- C3 (amended): when the upstreams and downstreams of a project share no name,
`detect` returns NoActionNeeded exactly when every upstream name resolved to the
empty identifier (so always when there are no upstreams); what the downstream
names resolve to plays no part. -/
theorem disjoint_names_decision (w : World) (p : Project) (t t1 t2 : Trace)
    (U D : GoMap)
    (hU : resolveRefs w p.Upstreams [] t = (t1, .ok U))
    (hD : resolveRefs w p.Downstreams [] t1 = (t2, .ok D))
    (hdisjoint : ∀ s ∈ p.Upstreams, ∀ s' ∈ p.Downstreams,
      StreamValue.Name s ≠ StreamValue.Name s') :
    ∃ needed, detect w p t = (t2, .ok needed) ∧
      (needed = false ↔ ∀ n u, GoMap.lookup U n = some u → u = "") := by
  have hnd : (GoMap.keys U).Nodup :=
    resolveRefs_nodup w p.Upstreams [] U t t1 hU (by simp [GoMap.keys])
  have habsent : ∀ n u, GoMap.lookup U n = some u → GoMap.index D n = "" := by
    intro n u hu
    apply GoMap.index_of_not_mem
    intro hmem
    have h1 := (resolveRefs_mem_keys w p.Upstreams [] U t t1 hU n).mp
      ((GoMap.mem_keys_iff_lookup U n).mpr ⟨u, hu⟩)
    have h2 := (resolveRefs_mem_keys w p.Downstreams [] D t1 t2 hD n).mp hmem
    simp only [GoMap.keys, List.map_nil, List.not_mem_nil, false_or, List.mem_map] at h1 h2
    obtain ⟨s, hs, hsn⟩ := h1
    obtain ⟨s', hs', hsn'⟩ := h2
    exact hdisjoint s hs s' hs' (hsn.trans hsn'.symm)
  refine ⟨updateNeeded U D, detect_of_refs w p t t1 t2 U D hU hD, ?_⟩
  rw [← Bool.not_eq_true, updateNeeded_iff_lookup U D hnd]
  constructor
  · intro h n u hu
    by_contra hne
    exact h ⟨n, u, hu, by rw [habsent n u hu]; exact fun h2 => hne h2.symm⟩
  · rintro h ⟨n, u, hu, hne⟩
    rw [habsent n u hu, h n u hu] at hne
    exact hne rfl

/-- Upstream `base` resolves to the empty identifier (its image lacks the label)
and the only downstream is `other`: NoActionNeeded. -/
theorem disjoint_names_decision_witness :
    ∃ needed,
      detect (exampleWorld [] (fun _ => "abc"))
          (exampleProject [dockerSource "base"] [githubSource "other" "o/q"]) [] =
        (inspectEvents ++ [.logLabelNotFound "rev" "x:1", .getBranch "o" "q" "main"],
          .ok needed) ∧
      (needed = false ↔ ∀ n u, GoMap.lookup [("base", "")] n = some u → u = "") :=
  disjoint_names_decision (exampleWorld [] (fun _ => "abc"))
    (exampleProject [dockerSource "base"] [githubSource "other" "o/q"]) []
    (inspectEvents ++ [.logLabelNotFound "rev" "x:1"])
    (inspectEvents ++ [.logLabelNotFound "rev" "x:1", .getBranch "o" "q" "main"])
    [("base", "")] [("other", "abc")] rfl rfl
    (by simp [exampleProject, dockerSource, githubSource, StreamValue.Name])

/-! ## The mappings (C10, C8) -/

/-- The entry of a name after a successful loop is the identifier resolved for
the last stream carrying that name. -/
theorem resolveRefs_last (w : World) (before after : List StreamValue) (stream : StreamValue)
    (refs m : GoMap) (t t' : Trace)
    (h : resolveRefs w (before ++ stream :: after) refs t = (t', .ok m))
    (hlast : ∀ s ∈ after, StreamValue.Name s ≠ stream.Name) :
    ∃ t0 m0 tr ref, resolveRefs w before refs t = (t0, .ok m0) ∧
      resolveStream w stream t0 = (tr, .ok ref) ∧ GoMap.lookup m stream.Name = some ref := by
  obtain ⟨t0, m0, h0, h1⟩ := resolveRefs_append_inv w before (stream :: after) refs m t t' h
  obtain ⟨tr, ref, hs, hrest⟩ := resolveRefs_cons_inv w stream after m0 m t0 t' h1
  refine ⟨t0, m0, tr, ref, h0, hs, ?_⟩
  rw [resolveRefs_lookup_other w after _ m tr t' hrest stream.Name hlast]
  exact GoMap.lookup_set_self m0 stream.Name ref

/-- Every name occurring in a sequence has a last stream carrying it. -/
theorem exists_last_named (streams : List StreamValue) (n : String)
    (h : n ∈ streams.map StreamValue.Name) :
    ∃ before stream after, streams = before ++ stream :: after ∧
      StreamValue.Name stream = n ∧ ∀ s ∈ after, StreamValue.Name s ≠ n := by
  induction streams with
  | nil => simp at h
  | cons s rest ih =>
    by_cases hr : n ∈ rest.map StreamValue.Name
    · obtain ⟨before, stream, after, hsplit, hname, hlast⟩ := ih hr
      exact ⟨s :: before, stream, after, by rw [hsplit, List.cons_append], hname, hlast⟩
    · have hs : StreamValue.Name s = n := by
        rcases List.mem_map.mp h with ⟨x, hx, hxn⟩
        rcases List.mem_cons.mp hx with rfl | hx'
        · exact hxn
        · exact absurd (List.mem_map.mpr ⟨x, hx', hxn⟩) hr
      refine ⟨[], s, rest, rfl, hs, ?_⟩
      intro s' hs' hn
      exact hr (List.mem_map.mpr ⟨s', hs', hn⟩)

/-- C10: after the loop over one side has run, the keys of the mapping are
exactly the names occurring in the sequence; every such name `n` has a last
source `stream` carrying it, and wherever the sequence is cut at the last source
of a name, the mapping sends that name to the identifier resolved for that
source (resolved at the trace `t0` reached after the sources `before` it). -/
theorem last_write_wins (w : World) (streams : List StreamValue) (t t' : Trace) (m : GoMap)
    (h : resolveRefs w streams [] t = (t', .ok m)) :
    (∀ n, n ∈ GoMap.keys m ↔ n ∈ streams.map StreamValue.Name) ∧
      (GoMap.keys m).Nodup ∧
      (∀ n ∈ streams.map StreamValue.Name, ∃ before stream after,
        streams = before ++ stream :: after ∧ StreamValue.Name stream = n ∧
          ∀ s ∈ after, StreamValue.Name s ≠ n) ∧
      ∀ before stream after, streams = before ++ stream :: after →
        (∀ s ∈ after, StreamValue.Name s ≠ stream.Name) →
        ∃ t0 m0 tr ref, resolveRefs w before [] t = (t0, .ok m0) ∧
          resolveStream w stream t0 = (tr, .ok ref) ∧
          GoMap.lookup m stream.Name = some ref := by
  refine ⟨?_, ?_, ?_, ?_⟩
  · intro n
    rw [resolveRefs_mem_keys w streams [] m t t' h n]
    simp [GoMap.keys]
  · exact resolveRefs_nodup w streams [] m t t' h (by simp [GoMap.keys])
  · exact fun n hn => exists_last_named streams n hn
  · intro before stream after hsplit hlast
    subst hsplit
    exact resolveRefs_last w before after stream [] m t t' h hlast

/-- Two sources named `base`, resolving to `r` and then to `q`: the mapping holds
`q`, the identifier resolved for the second one after the first was resolved. -/
theorem last_write_wins_witness :
    ∃ t0 m0 tr ref,
      resolveRefs (exampleWorld [] (fun repo => repo)) [githubSource "base" "o/r"] [] [] =
        (t0, .ok m0) ∧
      resolveStream (exampleWorld [] (fun repo => repo)) (githubSource "base" "o/q") t0 =
        (tr, .ok ref) ∧
      GoMap.lookup [("base", "q")] (githubSource "base" "o/q").Name = some ref :=
  (last_write_wins (exampleWorld [] (fun repo => repo))
    [githubSource "base" "o/r", githubSource "base" "o/q"] []
    [.getBranch "o" "r" "main", .getBranch "o" "q" "main"] [("base", "q")] rfl).2.2.2
    [githubSource "base" "o/r"] (githubSource "base" "o/q") [] rfl (by simp)

/-- When every stream of the list resolves successfully whatever the history,
the loop builds a map. -/
theorem resolveRefs_total (w : World) (streams : List StreamValue)
    (hok : ∀ s ∈ streams, ∀ t0, ∃ ref, (resolveStream w s t0).2 = .ok ref)
    (refs : GoMap) (t : Trace) :
    ∃ t' m, resolveRefs w streams refs t = (t', .ok m) := by
  induction streams generalizing refs t with
  | nil => exact ⟨t, refs, rfl⟩
  | cons s rest ih =>
    obtain ⟨ref, href⟩ := hok s (List.mem_cons_self _ _) t
    have hs : resolveStream w s t = ((resolveStream w s t).1, .ok ref) := by
      rw [← href]
    rw [resolveRefs_cons_ok w s rest refs t _ ref hs]
    exact ih (fun s' hs' => hok s' (List.mem_cons_of_mem _ hs')) _ _

/-- With a fixed resolution `ρ` and names that are unique in the list, the built
map sends the name of each stream to `ρ` of that stream. -/
theorem resolveRefs_lookup_fixed (w : World) (ρ : StreamValue → String)
    (streams : List StreamValue) (t t' : Trace) (m : GoMap)
    (h : resolveRefs w streams [] t = (t', .ok m))
    (hfixed : ∀ s ∈ streams, ∀ t0, (resolveStream w s t0).2 = .ok (ρ s))
    (hnodup : (streams.map StreamValue.Name).Nodup)
    (s : StreamValue) (hs : s ∈ streams) :
    GoMap.lookup m s.Name = some (ρ s) := by
  obtain ⟨before, after, hsplit⟩ := List.append_of_mem hs
  subst hsplit
  have hlast : ∀ s' ∈ after, StreamValue.Name s' ≠ s.Name := by
    intro s' hs' heq
    rw [List.map_append, List.map_cons] at hnodup
    have h1 := (List.nodup_append.mp hnodup).2.1
    have h2 := (List.nodup_cons.mp h1).1
    exact h2 (heq ▸ List.mem_map_of_mem StreamValue.Name hs')
  obtain ⟨t0, m0, tr, ref, _, hres, hl⟩ := resolveRefs_last w before after s [] m t t' h hlast
  have := hfixed s hs t0
  rw [hres] at this
  simp only [Except.ok.injEq] at this
  rw [hl, this]

/-- With a fixed resolution and unique names, reordering the streams does not
change what the built map answers. -/
theorem resolveRefs_lookup_perm (w : World) (ρ : StreamValue → String)
    (streams streams' : List StreamValue) (t t1 t' t1' : Trace) (m m' : GoMap)
    (h : resolveRefs w streams [] t = (t1, .ok m))
    (h' : resolveRefs w streams' [] t' = (t1', .ok m'))
    (hfixed : ∀ s ∈ streams, ∀ t0, (resolveStream w s t0).2 = .ok (ρ s))
    (hnodup : (streams.map StreamValue.Name).Nodup)
    (hperm : streams'.Perm streams) (n : String) :
    GoMap.lookup m' n = GoMap.lookup m n := by
  have hfixed' : ∀ s ∈ streams', ∀ t0, (resolveStream w s t0).2 = .ok (ρ s) :=
    fun s hs => hfixed s (hperm.mem_iff.mp hs)
  have hnodup' : (streams'.map StreamValue.Name).Nodup :=
    (List.Perm.nodup_iff (hperm.map StreamValue.Name)).mpr hnodup
  by_cases hn : n ∈ streams.map StreamValue.Name
  · obtain ⟨s, hs, rfl⟩ := List.mem_map.mp hn
    rw [resolveRefs_lookup_fixed w ρ streams t t1 m h hfixed hnodup s hs,
      resolveRefs_lookup_fixed w ρ streams' t' t1' m' h' hfixed' hnodup' s
        (hperm.mem_iff.mpr hs)]
  · have hn' : n ∉ streams'.map StreamValue.Name :=
      fun hc => hn ((hperm.map StreamValue.Name).mem_iff.mp hc)
    have e1 : GoMap.lookup m n = none := by
      rw [GoMap.lookup_eq_none_iff, resolveRefs_mem_keys w streams [] m t t1 h n]
      simpa [GoMap.keys] using hn
    have e2 : GoMap.lookup m' n = none := by
      rw [GoMap.lookup_eq_none_iff, resolveRefs_mem_keys w streams' [] m' t' t1' h' n]
      simpa [GoMap.keys] using hn'
    rw [e1, e2]

/-- C8: with names unique within each side and a fixed successful resolution `ρ`
of the sources, `detect` reaches a decision, and it reaches the same decision
for any reordering of the upstreams and of the downstreams (whatever the
history the run starts from and the order in which the map is ranged over). -/
theorem decision_order_independent (w : World) (p p' : Project) (ρ : StreamValue → String)
    (t t' : Trace)
    (hfixed : ∀ s ∈ p.Upstreams ++ p.Downstreams, ∀ t0,
      (resolveStream w s t0).2 = .ok (ρ s))
    (hUnique : (p.Upstreams.map StreamValue.Name).Nodup)
    (hDunique : (p.Downstreams.map StreamValue.Name).Nodup)
    (hU : p'.Upstreams.Perm p.Upstreams) (hD : p'.Downstreams.Perm p.Downstreams) :
    ∃ needed, (detect w p t).2 = .ok needed ∧ (detect w p' t').2 = .ok needed := by
  have hfU : ∀ s ∈ p.Upstreams, ∀ t0, (resolveStream w s t0).2 = .ok (ρ s) :=
    fun s hs => hfixed s (List.mem_append_left _ hs)
  have hfD : ∀ s ∈ p.Downstreams, ∀ t0, (resolveStream w s t0).2 = .ok (ρ s) :=
    fun s hs => hfixed s (List.mem_append_right _ hs)
  obtain ⟨t1, U, hUm⟩ := resolveRefs_total w p.Upstreams
    (fun s hs t0 => ⟨ρ s, hfU s hs t0⟩) [] t
  obtain ⟨t2, D, hDm⟩ := resolveRefs_total w p.Downstreams
    (fun s hs t0 => ⟨ρ s, hfD s hs t0⟩) [] t1
  obtain ⟨t1', U', hUm'⟩ := resolveRefs_total w p'.Upstreams
    (fun s hs t0 => ⟨ρ s, hfU s (hU.mem_iff.mp hs) t0⟩) [] t'
  obtain ⟨t2', D', hDm'⟩ := resolveRefs_total w p'.Downstreams
    (fun s hs t0 => ⟨ρ s, hfD s (hD.mem_iff.mp hs) t0⟩) [] t1'
  have hUl : ∀ n, GoMap.lookup U' n = GoMap.lookup U n :=
    resolveRefs_lookup_perm w ρ p.Upstreams p'.Upstreams t t1 t' t1' U U' hUm hUm' hfU
      hUnique hU
  have hDl : ∀ n, GoMap.lookup D' n = GoMap.lookup D n :=
    resolveRefs_lookup_perm w ρ p.Downstreams p'.Downstreams t1 t2 t1' t2' D D' hDm hDm' hfD
      hDunique hD
  have hndU : (GoMap.keys U).Nodup :=
    resolveRefs_nodup w p.Upstreams [] U t t1 hUm (by simp [GoMap.keys])
  have hndU' : (GoMap.keys U').Nodup :=
    resolveRefs_nodup w p'.Upstreams [] U' t' t1' hUm' (by simp [GoMap.keys])
  have hsame : updateNeeded U' D' = updateNeeded U D := by
    rw [Bool.eq_iff_iff, updateNeeded_iff_lookup U' D' hndU',
      updateNeeded_iff_lookup U D hndU]
    simp only [GoMap.index, hUl, hDl]
  refine ⟨updateNeeded U D, ?_, ?_⟩
  · rw [detect_of_refs w p t t1 t2 U D hUm hDm]
  · rw [detect_of_refs w p' t' t1' t2' U' D' hUm' hDm', hsame]

/-- Both sides of a project swapped around: NoActionNeeded either way. -/
theorem decision_order_independent_witness :
    ∃ needed,
      (detect (exampleWorld [("rev", "q")] (fun repo => repo))
          (exampleProject [dockerSource "a", githubSource "b" "o/r"]
            [githubSource "a" "o/q", githubSource "b" "o/r"]) []).2 = .ok needed ∧
      (detect (exampleWorld [("rev", "q")] (fun repo => repo))
          (exampleProject [githubSource "b" "o/r", dockerSource "a"]
            [githubSource "b" "o/r", githubSource "a" "o/q"]) [.logNoUpdate]).2 =
        .ok needed :=
  decision_order_independent (exampleWorld [("rev", "q")] (fun repo => repo))
    (exampleProject [dockerSource "a", githubSource "b" "o/r"]
      [githubSource "a" "o/q", githubSource "b" "o/r"])
    (exampleProject [githubSource "b" "o/r", dockerSource "a"]
      [githubSource "b" "o/r", githubSource "a" "o/q"])
    exampleResolution [] [.logNoUpdate]
    (by
      intro s hs t0
      simp only [exampleProject, List.cons_append, List.nil_append, List.mem_cons,
        List.not_mem_nil, or_false] at hs
      rcases hs with rfl | rfl | rfl | rfl <;> rfl)
    (by simp [exampleProject, dockerSource, githubSource, StreamValue.Name])
    (by simp [exampleProject, dockerSource, githubSource, StreamValue.Name])
    (List.Perm.swap _ _ _)
    (List.Perm.swap _ _ _)

/-! ## Fail-fast (C5) -/

/-- Resolving a stream only adds resolution events to the history. -/
theorem resolveStream_trace (w : World) (s : StreamValue) (t : Trace) :
    ∃ events, (resolveStream w s t).1 = t ++ events ∧
      ∀ ev ∈ events, Event.isOutcome ev = false := by
  cases s with
  | docker image =>
    simp only [resolveStream, DockerStream.inspectDockerImageLabel]
    split
    · exact ⟨[.newDockerClient], rfl, by simp [Event.isOutcome]⟩
    · split
      · exact ⟨[.newDockerClient, .imagePull (image.Image ++ ":" ++ image.Tag)],
          by simp, by simp [Event.isOutcome]⟩
      · split
        · exact ⟨[.newDockerClient, .imagePull (image.Image ++ ":" ++ image.Tag),
            .imageInspect (image.Image ++ ":" ++ image.Tag)], by simp,
            by simp [Event.isOutcome]⟩
        · split
          · exact ⟨[.newDockerClient, .imagePull (image.Image ++ ":" ++ image.Tag),
              .imageInspect (image.Image ++ ":" ++ image.Tag)], by simp,
              by simp [Event.isOutcome]⟩
          · exact ⟨[.newDockerClient, .imagePull (image.Image ++ ":" ++ image.Tag),
              .imageInspect (image.Image ++ ":" ++ image.Tag),
              .logLabelNotFound image.Label (image.Image ++ ":" ++ image.Tag)], by simp,
              by simp [Event.isOutcome]⟩
  | github repo =>
    simp only [resolveStream, GitHubStream.getLatestGitHubCommit]
    split
    · exact ⟨[], by simp, by simp⟩
    · split
      · exact ⟨[], by simp, by simp⟩
      · rename_i owner _ _ name _
        split
        · exact ⟨[.getBranch owner name repo.Branch], rfl, by simp [Event.isOutcome]⟩
        · exact ⟨[.getBranch owner name repo.Branch], rfl, by simp [Event.isOutcome]⟩

/-- The resolution loop only adds resolution events to the history. -/
theorem resolveRefs_trace (w : World) (streams : List StreamValue) (refs : GoMap) (t : Trace) :
    ∃ events, (resolveRefs w streams refs t).1 = t ++ events ∧
      ∀ ev ∈ events, Event.isOutcome ev = false := by
  induction streams generalizing refs t with
  | nil => exact ⟨[], by simp [resolveRefs], by simp⟩
  | cons s rest ih =>
    obtain ⟨ev1, h1, hev1⟩ := resolveStream_trace w s t
    rcases hs : resolveStream w s t with ⟨t1, r⟩
    rw [hs] at h1
    simp only at h1
    cases r with
    | error e =>
      rw [resolveRefs_cons_error w s rest refs t t1 e hs]
      exact ⟨ev1, h1, hev1⟩
    | ok ref =>
      rw [resolveRefs_cons_ok w s rest refs t t1 ref hs]
      obtain ⟨ev2, h2, hev2⟩ := ih (GoMap.set refs s.Name ref) t1
      refine ⟨ev1 ++ ev2, ?_, ?_⟩
      · rw [h2, h1, List.append_assoc]
      · intro ev hev
        rcases List.mem_append.mp hev with h | h
        · exact hev1 ev h
        · exact hev2 ev h

/-- Reaching a decision, or failing to, only adds resolution events. -/
theorem detect_trace (w : World) (p : Project) (t : Trace) :
    ∃ events, (detect w p t).1 = t ++ events ∧
      ∀ ev ∈ events, Event.isOutcome ev = false := by
  obtain ⟨ev1, h1, hev1⟩ := resolveRefs_trace w p.Upstreams [] t
  rcases hU : resolveRefs w p.Upstreams [] t with ⟨t1, r⟩
  rw [hU] at h1
  simp only at h1
  cases r with
  | error e =>
    refine ⟨ev1, ?_, hev1⟩
    simp only [detect, hU]
    exact h1
  | ok U =>
    obtain ⟨ev2, h2, hev2⟩ := resolveRefs_trace w p.Downstreams [] t1
    rcases hD : resolveRefs w p.Downstreams [] t1 with ⟨t2, r2⟩
    rw [hD] at h2
    simp only at h2
    refine ⟨ev1 ++ ev2, ?_, ?_⟩
    · cases r2 with
      | error e =>
        simp only [detect, hU, hD]
        rw [h2, h1, List.append_assoc]
      | ok D =>
        simp only [detect, hU, hD]
        rw [h2, h1, List.append_assoc]
    · intro ev hev
      rcases List.mem_append.mp hev with h | h
      · exact hev1 ev h
      · exact hev2 ev h

/-- A loop whose first streams resolve and whose next stream fails ends with that
failure, whatever map it writes to and whatever streams follow. -/
theorem resolveRefs_fails (w : World) (resolved unresolved : List StreamValue)
    (stream : StreamValue) (refs0 refs m : GoMap) (t tf te : Trace) (e : Error)
    (hresolved : resolveRefs w resolved refs0 t = (tf, .ok m))
    (hfail : resolveStream w stream tf = (te, .error e)) :
    resolveRefs w (resolved ++ stream :: unresolved) refs t = (te, .error e) := by
  induction resolved generalizing refs0 refs t with
  | nil =>
    simp only [resolveRefs, Prod.mk.injEq, Except.ok.injEq] at hresolved
    rw [hresolved.1]
    exact resolveRefs_cons_error w stream unresolved refs tf te e hfail
  | cons s rest ih =>
    obtain ⟨t1, ref, hs, hrest⟩ := resolveRefs_cons_inv w s rest refs0 m t tf hresolved
    rw [List.cons_append, resolveRefs_cons_ok w s _ refs t t1 ref hs]
    exact ih _ _ _ hrest

/-- The project loop over `earlier ++ rest` after `earlier` went through. -/
theorem processProjects_append (w : World) (earlier rest : List Project) (t tk : Trace)
    (h : processProjects w earlier t = (tk, .ok ())) :
    processProjects w (earlier ++ rest) t = processProjects w rest tk := by
  induction earlier generalizing t with
  | nil =>
    simp only [processProjects, Prod.mk.injEq] at h
    rw [List.nil_append, h.1]
  | cons p ps ih =>
    rcases hp : processProject w p t with ⟨t1, r⟩
    cases r with
    | error e =>
      simp only [processProjects, hp] at h
      simp at h
    | ok u =>
      simp only [processProjects, hp] at h
      simp only [List.cons_append, processProjects, hp]
      exact ih t1 h

/-- C5: if the projects before the k-th one went through and, in the k-th
project `p`, an upstream source fails after the upstreams before it resolved, or
a downstream source fails after all upstreams and the downstreams before it
resolved, then `detect` reaches no decision for `p`, the run over all projects
(and `main`) ends with that error at the very history `te` of the failed
resolution, so nothing is resolved or decided afterwards, and since the k-th
project began only resolution events were added: no dispatch and no decision. -/
theorem fail_fast (w : World) (earlier later : List Project) (p : Project)
    (t tk tf te : Trace) (e : Error)
    (hmanifest : readStreamsJson w "streams.json" = .ok (earlier ++ p :: later))
    (hearlier : processProjects w earlier t = (tk, .ok ()))
    (hfail :
      (∃ resolved stream unresolved m,
        p.Upstreams = resolved ++ stream :: unresolved ∧
        resolveRefs w resolved [] tk = (tf, .ok m) ∧
        resolveStream w stream tf = (te, .error e)) ∨
      (∃ U t1 resolved stream unresolved m,
        resolveRefs w p.Upstreams [] tk = (t1, .ok U) ∧
        p.Downstreams = resolved ++ stream :: unresolved ∧
        resolveRefs w resolved [] t1 = (tf, .ok m) ∧
        resolveStream w stream tf = (te, .error e))) :
    detect w p tk = (te, .error e) ∧
      processProjects w (earlier ++ p :: later) t = (te, .error e) ∧
      main w t = (te, .error e) ∧
      ∃ events, te = tk ++ events ∧ ∀ ev ∈ events, Event.isOutcome ev = false := by
  have hdet : detect w p tk = (te, .error e) := by
    rcases hfail with ⟨resolved, stream, unresolved, m, hsplit, hres, hf⟩ |
      ⟨U, t1, resolved, stream, unresolved, m, hU, hsplit, hres, hf⟩
    · have := resolveRefs_fails w resolved unresolved stream [] [] m tk tf te e hres hf
      rw [← hsplit] at this
      simp only [detect, this]
    · have := resolveRefs_fails w resolved unresolved stream [] [] m t1 tf te e hres hf
      rw [← hsplit] at this
      simp only [detect, hU, this]
  have hrun : processProjects w (earlier ++ p :: later) t = (te, .error e) := by
    rw [processProjects_append w earlier (p :: later) t tk hearlier]
    simp only [processProjects, processProject, hdet]
  refine ⟨hdet, hrun, ?_, ?_⟩
  · simp only [main, hmanifest, hrun]
  · obtain ⟨events, h1, h2⟩ := detect_trace w p tk
    rw [hdet] at h1
    exact ⟨events, h1, h2⟩

/-- The first project goes through, the upstream of the second cannot be
resolved: the run stops there and the third project is never looked at. -/
theorem fail_fast_witness :
    detect brokenWorld exampleTracked [.logNoUpdate] =
        ([.logNoUpdate, .getBranch "o" "r" "main"], .error (.fatal "404 Not Found")) ∧
      processProjects brokenWorld
          ([exampleProject [] []] ++ exampleTracked :: [exampleProject [] []]) [] =
        ([.logNoUpdate, .getBranch "o" "r" "main"], .error (.fatal "404 Not Found")) ∧
      main brokenWorld [] =
        ([.logNoUpdate, .getBranch "o" "r" "main"], .error (.fatal "404 Not Found")) ∧
      ∃ events, [Event.logNoUpdate, .getBranch "o" "r" "main"] = [.logNoUpdate] ++ events ∧
        ∀ ev ∈ events, Event.isOutcome ev = false :=
  fail_fast brokenWorld [exampleProject [] []] [exampleProject [] []] exampleTracked
    [] [.logNoUpdate] [.logNoUpdate] [.logNoUpdate, .getBranch "o" "r" "main"]
    (.fatal "404 Not Found") rfl rfl
    (Or.inl ⟨[], githubSource "base" "o/r", [], [], rfl, rfl, rfl⟩)

/-! ## Facts about `strings.Split` -/

theorem splitChars_ne_nil (sep : Char) (cs : List Char) : splitChars sep cs ≠ [] := by
  induction cs with
  | nil => simp [splitChars]
  | cons c rest ih =>
    by_cases h : c = sep
    · simp [splitChars, h]
    · simp only [splitChars, h, if_false]
      split <;> simp

theorem splitChars_of_not_mem (sep : Char) (cs : List Char) (h : sep ∉ cs) :
    splitChars sep cs = [cs] := by
  induction cs with
  | nil => simp [splitChars]
  | cons c rest ih =>
    have hc : ¬ c = sep := fun hc => h (hc ▸ List.mem_cons_self _ _)
    have hr : sep ∉ rest := fun hr => h (List.mem_cons_of_mem _ hr)
    simp [splitChars, hc, ih hr]

theorem splitChars_append_sep (sep : Char) (a b : List Char) (h : sep ∉ a) :
    splitChars sep (a ++ sep :: b) = a :: splitChars sep b := by
  induction a with
  | nil => simp [splitChars]
  | cons c rest ih =>
    have hc : ¬ c = sep := fun hc => h (hc ▸ List.mem_cons_self _ _)
    have hr : sep ∉ rest := fun hr => h (List.mem_cons_of_mem _ hr)
    simp [splitChars, hc, ih hr]

theorem splitChars_length (sep : Char) (cs : List Char) :
    (splitChars sep cs).length = cs.count sep + 1 := by
  induction cs with
  | nil => simp [splitChars]
  | cons c rest ih =>
    by_cases h : c = sep
    · subst h
      simp [splitChars, ih]
    · have hne : (c == sep) = false := by simpa using h
      simp only [splitChars, h, if_false, List.count_cons, hne]
      cases hs : splitChars sep rest with
      | nil => exact absurd hs (splitChars_ne_nil sep rest)
      | cons part parts =>
        rw [hs] at ih
        simpa using ih

/-- A name of the form `owner/repo` splits into its two parts. -/
theorem stringsSplit_owner_repo (owner repo : String) (howner : '/' ∉ owner.data)
    (hrepo : '/' ∉ repo.data) :
    stringsSplit (owner ++ "/" ++ repo) = [owner, repo] := by
  have hdata : (owner ++ "/" ++ repo).data = owner.data ++ '/' :: repo.data := by
    simp [String.data_append]
  simp [stringsSplit, hdata, splitChars_append_sep '/' owner.data repo.data howner,
    splitChars_of_not_mem '/' repo.data hrepo]

/-! ## The rebuild trigger (C9) -/

/-- C9: for a project named `owner/repo` for which `detect` reached a decision,
the workflow-dispatch calls made while processing the project are exactly one
call with `owner`, `repo`, `BuildWorkflow` and `Branch` when the decision is
NeedsRebuild, and none when it is NoActionNeeded (which ends without error). -/
theorem rebuild_trigger_contract (w : World) (p : Project) (owner repo : String)
    (t t1 : Trace) (needed : Bool)
    (hname : p.Name = owner ++ "/" ++ repo)
    (howner : '/' ∉ owner.data) (hrepo : '/' ∉ repo.data)
    (hdetect : detect w p t = (t1, .ok needed)) :
    ∃ events result, processProject w p t = (t ++ events, result) ∧
      events.filter Event.isDispatch =
        (if needed = true then [Event.workflowDispatch owner repo p.BuildWorkflow p.Branch]
          else []) ∧
      (needed = false → result = .ok ()) := by
  obtain ⟨ev1, h1, hev1⟩ := detect_trace w p t
  rw [hdetect] at h1
  simp only at h1
  have hnone : ev1.filter Event.isDispatch = [] := by
    rw [List.filter_eq_nil_iff]
    intro ev hev hd
    have := hev1 ev hev
    cases ev <;> simp_all [Event.isDispatch, Event.isOutcome]
  have hsplit := stringsSplit_owner_repo owner repo howner hrepo
  subst h1
  cases needed with
  | false =>
    refine ⟨ev1 ++ [.logNoUpdate], .ok (), ?_, ?_, fun _ => rfl⟩
    · simp only [processProject, hdetect, trigger, Bool.false_eq_true, if_false,
        List.append_assoc]
    · simp [List.filter_append, hnone, Event.isDispatch]
  | true =>
    cases hc : check (w.CreateWorkflowDispatchEventByFileName (t ++ ev1) owner repo
        p.BuildWorkflow p.Branch) with
    | error e =>
      refine ⟨ev1 ++ [.workflowDispatch owner repo p.BuildWorkflow p.Branch], .error e,
        ?_, ?_, fun h => absurd h (by simp)⟩
      · simp only [processProject, hdetect, trigger, if_true, hname, hsplit, sliceIndex,
          List.get?, hc, List.append_assoc]
      · simp [List.filter_append, hnone, Event.isDispatch]
    | ok resp =>
      refine ⟨ev1 ++ [.workflowDispatch owner repo p.BuildWorkflow p.Branch,
        .logResponse resp], .ok (), ?_, ?_, fun h => absurd h (by simp)⟩
      · simp only [processProject, hdetect, trigger, if_true, hname, hsplit, sliceIndex,
          List.get?, hc, List.append_assoc]
        simp
      · simp [List.filter_append, hnone, Event.isDispatch]

/-- Scenario B for project `o/p`: one dispatch for workflow `build.yml` on `main`. -/
theorem rebuild_trigger_contract_witness :
    ∃ events result,
      processProject (exampleWorld [("rev", "abc")] (fun _ => "def"))
          (exampleProject [dockerSource "base"] [githubSource "base" "o/r"]) [] =
        ([] ++ events, result) ∧
      events.filter Event.isDispatch =
        (if true = true then [Event.workflowDispatch "o" "p" "build.yml" "main"] else []) ∧
      (true = false → result = .ok ()) :=
  rebuild_trigger_contract (exampleWorld [("rev", "abc")] (fun _ => "def"))
    (exampleProject [dockerSource "base"] [githubSource "base" "o/r"]) "o" "p" []
    (inspectEvents ++ [.getBranch "o" "r" "main"]) true rfl (by decide) (by decide) rfl

/-! ## Resolution of a single source (C4, C7) -/

/-- C4, as stated, fails: the coordinate `o/r/x` has two separators, yet
`getLatestGitHubCommit` queries the tip of branch `main` of `o/r` and returns the
identifier the query gives. -/
theorem two_separators_still_queried :
    ("o/r/x".data.count '/' ≠ 1) ∧
      GitHubStream.getLatestGitHubCommit (exampleWorld [] (fun _ => "abc"))
          { Name := "base", StreamType := "github", Repo := "o/r/x", Branch := "main" } [] =
        ([.getBranch "o" "r" "main"], .ok "abc") :=
  ⟨by decide, rfl⟩

/-- C4 (amended): a coordinate without a separator ends the run with an
index-out-of-range panic before any branch is queried; a coordinate with two or
more separators is not rejected: the branch tip is queried with its first two
parts as owner and repository name, the further parts are ignored, and the
outcome is the outcome of that query. -/
theorem malformed_coordinate (w : World) (repo : GitHubStream) (t : Trace) :
    (repo.Repo.data.count '/' = 0 →
        repo.getLatestGitHubCommit w t = (t, .error (.indexOutOfRange 1 1))) ∧
      (2 ≤ repo.Repo.data.count '/' →
        ∃ owner name extra, stringsSplit repo.Repo = owner :: name :: extra ∧
          extra ≠ [] ∧
          repo.getLatestGitHubCommit w t =
            (t ++ [.getBranch owner name repo.Branch],
              check (w.GetBranch t owner name repo.Branch))) := by
  constructor
  · intro h0
    have hnot : '/' ∉ repo.Repo.data := List.count_eq_zero.mp h0
    have hs : stringsSplit repo.Repo = [String.mk repo.Repo.data] := by
      simp [stringsSplit, splitChars_of_not_mem '/' repo.Repo.data hnot]
    simp [GitHubStream.getLatestGitHubCommit, hs, sliceIndex]
  · intro h2
    have hlen : 3 ≤ (stringsSplit repo.Repo).length := by
      simp only [stringsSplit, List.length_map, splitChars_length]
      omega
    cases hs : stringsSplit repo.Repo with
    | nil => rw [hs] at hlen; simp at hlen
    | cons owner rest =>
      cases rest with
      | nil => rw [hs] at hlen; simp at hlen
      | cons name extra =>
        cases extra with
        | nil => rw [hs] at hlen; simp at hlen
        | cons third more =>
          refine ⟨owner, name, third :: more, rfl, by simp, ?_⟩
          simp only [GitHubStream.getLatestGitHubCommit, hs, sliceIndex, List.get?]
          cases check (w.GetBranch t owner name repo.Branch) <;> rfl

/-- The coordinate `repo` panics; the coordinate `o/r/x` is queried as `o/r`. -/
theorem malformed_coordinate_witness :
    GitHubStream.getLatestGitHubCommit (exampleWorld [] (fun _ => "abc"))
          { Name := "base", StreamType := "github", Repo := "repo", Branch := "main" } [] =
        ([], .error (.indexOutOfRange 1 1)) ∧
      ∃ owner name extra, stringsSplit "o/r/x" = owner :: name :: extra ∧ extra ≠ [] ∧
        GitHubStream.getLatestGitHubCommit (exampleWorld [] (fun _ => "abc"))
            { Name := "base", StreamType := "github", Repo := "o/r/x", Branch := "main" } [] =
          ([] ++ [.getBranch owner name "main"],
            check ((exampleWorld [] (fun _ => "abc")).GetBranch [] owner name "main")) :=
  ⟨(malformed_coordinate (exampleWorld [] (fun _ => "abc"))
      { Name := "base", StreamType := "github", Repo := "repo", Branch := "main" } []).1
      (by decide),
    (malformed_coordinate (exampleWorld [] (fun _ => "abc"))
      { Name := "base", StreamType := "github", Repo := "o/r/x", Branch := "main" } []).2
      (by decide)⟩

/-- C7: when the client is created and the image is pulled and inspected without
error, `inspectDockerImageLabel` returns the value of the label if the inspected
label set has the key `Label`, and the empty string, not an error, after logging
a notice, if it has not. -/
theorem missing_label_degrades (w : World) (image : DockerStream) (t : Trace) (labels : GoMap)
    (hclient : w.NewClientWithOpts t = .ok ())
    (hpull : w.ImagePull (t ++ [.newDockerClient]) (image.Image ++ ":" ++ image.Tag) = .ok ())
    (hinspect : w.ImageInspectWithRaw
        (t ++ [.newDockerClient] ++ [.imagePull (image.Image ++ ":" ++ image.Tag)])
        (image.Image ++ ":" ++ image.Tag) = .ok labels) :
    (image.Label ∈ GoMap.keys labels →
        ∃ labelValue, GoMap.lookup labels image.Label = some labelValue ∧
          image.inspectDockerImageLabel w t =
            (t ++ [.newDockerClient] ++ [.imagePull (image.Image ++ ":" ++ image.Tag)] ++
              [.imageInspect (image.Image ++ ":" ++ image.Tag)], .ok labelValue)) ∧
      (image.Label ∉ GoMap.keys labels →
        image.inspectDockerImageLabel w t =
          (t ++ [.newDockerClient] ++ [.imagePull (image.Image ++ ":" ++ image.Tag)] ++
            [.imageInspect (image.Image ++ ":" ++ image.Tag)] ++
            [.logLabelNotFound image.Label (image.Image ++ ":" ++ image.Tag)], .ok "")) := by
  constructor
  · intro hmem
    obtain ⟨v, hv⟩ := (GoMap.mem_keys_iff_lookup labels image.Label).mp hmem
    refine ⟨v, hv, ?_⟩
    simp only [DockerStream.inspectDockerImageLabel, hclient, hpull, hinspect, check, hv]
  · intro hnot
    have hv := (GoMap.lookup_eq_none_iff labels image.Label).mpr hnot
    simp only [DockerStream.inspectDockerImageLabel, hclient, hpull, hinspect, check, hv]

/-- An image with the label `rev` gives its value `abc`; an image with the label
`other` only gives the empty string. -/
theorem missing_label_degrades_witness :
    (∃ labelValue, GoMap.lookup [("rev", "abc")] "rev" = some labelValue ∧
        DockerStream.inspectDockerImageLabel (exampleWorld [("rev", "abc")] (fun _ => "abc"))
            { Name := "base", StreamType := "docker", Image := "x", Tag := "1", Label := "rev" }
            [] =
          ([] ++ [.newDockerClient] ++ [.imagePull ("x" ++ ":" ++ "1")] ++
            [.imageInspect ("x" ++ ":" ++ "1")], .ok labelValue)) ∧
      DockerStream.inspectDockerImageLabel (exampleWorld [("other", "1")] (fun _ => "abc"))
          { Name := "base", StreamType := "docker", Image := "x", Tag := "1", Label := "rev" }
          [] =
        ([] ++ [.newDockerClient] ++ [.imagePull ("x" ++ ":" ++ "1")] ++
          [.imageInspect ("x" ++ ":" ++ "1")] ++
          [.logLabelNotFound "rev" ("x" ++ ":" ++ "1")], .ok "") :=
  ⟨(missing_label_degrades (exampleWorld [("rev", "abc")] (fun _ => "abc"))
      { Name := "base", StreamType := "docker", Image := "x", Tag := "1", Label := "rev" } []
      [("rev", "abc")] rfl rfl rfl).1 (by simp [GoMap.keys]),
    (missing_label_degrades (exampleWorld [("other", "1")] (fun _ => "abc"))
      { Name := "base", StreamType := "docker", Image := "x", Tag := "1", Label := "rev" } []
      [("other", "1")] rfl rfl rfl).2 (by simp [GoMap.keys])⟩

/-! ## Building the collections (C6) -/

theorem interfaceEqString_iff (v : Option JsonValue) (lit : String) :
    interfaceEqString v lit = true ↔ v = some (.string lit) := by
  cases v with
  | none => simp [interfaceEqString]
  | some j => cases j <;> simp [interfaceEqString]

theorem Record.recognised_iff (record : Record) :
    Record.recognised record = true ↔
      Record.index record "type" = some (.string "docker") ∨
        Record.index record "type" = some (.string "github") := by
  simp only [Record.recognised, Bool.or_eq_true, interfaceEqString_iff]

/-- The inner loop appends one entry per recognised record and skips the rest. -/
theorem readStreams_spec (w : World) (records : List Record)
    (hmarshal : ∀ r ∈ records, Record.recognised r = true → ∃ newJson, w.Marshal r = .ok newJson)
    (streams : List StreamValue) :
    ∃ built, readStreams w records streams = .ok (streams ++ built) ∧
      CollectionOf w records built := by
  induction records generalizing streams with
  | nil => exact ⟨[], by simp [readStreams], List.Forall₂.nil⟩
  | cons r rest ih =>
    have hrest : ∀ r' ∈ rest, Record.recognised r' = true → ∃ newJson, w.Marshal r' = .ok newJson :=
      fun r' hr' => hmarshal r' (List.mem_cons_of_mem _ hr')
    by_cases hd : interfaceEqString (Record.index r "type") "docker" = true
    · have hrec : Record.recognised r = true := by simp [Record.recognised, hd]
      obtain ⟨newJson, hj⟩ := hmarshal r (List.mem_cons_self _ _) hrec
      obtain ⟨built, hb, hc⟩ := ih hrest (streams ++ [.docker (w.UnmarshalDockerStream newJson)])
      refine ⟨.docker (w.UnmarshalDockerStream newJson) :: built, ?_, ?_⟩
      · simp only [readStreams, hd, if_true, hj, check, hb, List.append_assoc,
          List.singleton_append]
      · simp only [CollectionOf, List.filter_cons, hrec, if_true]
        exact List.Forall₂.cons
          (Or.inl ⟨(interfaceEqString_iff _ _).mp hd, newJson, hj, rfl⟩) hc
    · by_cases hg : interfaceEqString (Record.index r "type") "github" = true
      · have hrec : Record.recognised r = true := by simp [Record.recognised, hg]
        obtain ⟨newJson, hj⟩ := hmarshal r (List.mem_cons_self _ _) hrec
        obtain ⟨built, hb, hc⟩ := ih hrest (streams ++ [.github (w.UnmarshalGitHubStream newJson)])
        refine ⟨.github (w.UnmarshalGitHubStream newJson) :: built, ?_, ?_⟩
        · simp only [readStreams, hd, hg, if_true, hj, check, hb, List.append_assoc,
            List.singleton_append]
          simp
        · simp only [CollectionOf, List.filter_cons, hrec, if_true]
          exact List.Forall₂.cons
            (Or.inr ⟨(interfaceEqString_iff _ _).mp hg, newJson, hj, rfl⟩) hc
      · have hrec : Record.recognised r = false := by
          simp only [Record.recognised, Bool.or_eq_false_iff]
          exact ⟨by simpa using hd, by simpa using hg⟩
        obtain ⟨built, hb, hc⟩ := ih hrest streams
        refine ⟨built, ?_, ?_⟩
        · simp only [readStreams, hd, hg, hb]
          simp
        · simp only [CollectionOf, List.filter_cons, hrec]
          exact hc

/-- Records of an unrecognised type never change what the inner loop returns,
be it a collection or an error. -/
theorem readStreams_filter (w : World) (records : List Record) (streams : List StreamValue) :
    readStreams w records streams =
      readStreams w (records.filter Record.recognised) streams := by
  induction records generalizing streams with
  | nil => rfl
  | cons r rest ih =>
    by_cases hd : interfaceEqString (Record.index r "type") "docker" = true
    · have hrec : Record.recognised r = true := by simp [Record.recognised, hd]
      simp only [List.filter_cons, hrec, if_true, readStreams, hd]
      cases check (w.Marshal r) with
      | error e => rfl
      | ok newJson => exact ih _
    · by_cases hg : interfaceEqString (Record.index r "type") "github" = true
      · have hrec : Record.recognised r = true := by simp [Record.recognised, hg]
        simp only [List.filter_cons, hrec, if_true, readStreams, hd, hg]
        cases check (w.Marshal r) with
        | error e => simp
        | ok newJson => simpa using ih _
      · have hrec : Record.recognised r = false := by
          simp only [Record.recognised, Bool.or_eq_false_iff]
          exact ⟨by simpa using hd, by simpa using hg⟩
        simp only [List.filter_cons, hrec, readStreams, hd, hg]
        simpa using ih streams

/-- The outer loop appends one parsed project per manifest project. -/
theorem readProjects_spec (w : World) (projects : List Project)
    (hmarshal : ∀ p ∈ projects, ∀ r ∈ p.JsonUpstreams ++ p.JsonDownstreams,
      Record.recognised r = true → ∃ newJson, w.Marshal r = .ok newJson)
    (parsedProjects : Projects) :
    ∃ parsed, readProjects w projects parsedProjects = .ok (parsedProjects ++ parsed) ∧
      List.Forall₂ (ParsedFrom w) projects parsed := by
  induction projects generalizing parsedProjects with
  | nil => exact ⟨[], by simp [readProjects], List.Forall₂.nil⟩
  | cons p rest ih =>
    obtain ⟨ups, hu, hcu⟩ := readStreams_spec w p.JsonUpstreams
      (fun r hr => hmarshal p (List.mem_cons_self _ _) r (List.mem_append_left _ hr)) []
    obtain ⟨downs, hd, hcd⟩ := readStreams_spec w p.JsonDownstreams
      (fun r hr => hmarshal p (List.mem_cons_self _ _) r (List.mem_append_right _ hr)) []
    obtain ⟨parsed, hp, hf⟩ := ih (fun p' hp' => hmarshal p' (List.mem_cons_of_mem _ hp'))
      (parsedProjects ++ [{ p with Upstreams := ups, Downstreams := downs }])
    refine ⟨{ p with Upstreams := ups, Downstreams := downs } :: parsed, ?_, ?_⟩
    · rw [List.nil_append] at hu hd
      simp only [readProjects, hu, hd, hp, List.append_assoc, List.singleton_append]
    · exact List.Forall₂.cons ⟨rfl, rfl, rfl, rfl, hcu, hcd⟩ hf

/-- C6: when the manifest is read and decoded into `projects`, and re-encoding
succeeds on the records of a recognised type, `readStreamsJson` returns one
parsed project per manifest project whose upstream collection, and likewise its
downstream collection, holds exactly one entry for each record whose `"type"` is
the string `docker` (a `DockerStream`) or `github` (a `GitHubStream`), in the
records' order; a record of any other type gives no entry and no error, and
removing such records never changes what the loop over the records returns. -/
theorem unknown_kinds_dropped (w : World) (filename jsonFile byteValue : String)
    (projects : Projects)
    (hopen : w.Open filename = .ok jsonFile)
    (hread : w.ReadAll jsonFile = .ok byteValue)
    (hdecode : w.Unmarshal byteValue = .ok projects)
    (hmarshal : ∀ p ∈ projects, ∀ r ∈ p.JsonUpstreams ++ p.JsonDownstreams,
      Record.recognised r = true → ∃ newJson, w.Marshal r = .ok newJson) :
    (∃ parsed, readStreamsJson w filename = .ok parsed ∧
        List.Forall₂ (ParsedFrom w) projects parsed) ∧
      (∀ r : Record, Record.recognised r = true ↔
        (Record.index r "type" = some (.string "docker") ∨
          Record.index r "type" = some (.string "github"))) ∧
      ∀ (records : List Record) (streams : List StreamValue),
        readStreams w records streams =
          readStreams w (records.filter Record.recognised) streams := by
  refine ⟨?_, Record.recognised_iff, readStreams_filter w⟩
  obtain ⟨parsed, hp, hf⟩ := readProjects_spec w projects hmarshal []
  refine ⟨parsed, ?_, hf⟩
  simp only [readStreamsJson, hopen, hread, hdecode, check, hp, List.nil_append]

/-- Scenario D: of the four upstream records only `base` and `source` give an
entry, in that order, and the untyped downstream record gives none. -/
theorem unknown_kinds_dropped_witness :
    (∃ parsed, readStreamsJson scenarioWorld "streams.json" = .ok parsed ∧
        List.Forall₂ (ParsedFrom scenarioWorld) scenarioManifest parsed) ∧
      (readStreamsJson scenarioWorld "streams.json").map
          (fun parsed => parsed.map (fun p => (p.Upstreams, p.Downstreams))) =
        .ok [([dockerSource "base", githubSource "source" "o/r"], [])] :=
  ⟨(unknown_kinds_dropped scenarioWorld "streams.json" "streams.json" "bytes"
      scenarioManifest rfl rfl rfl
      (by
        intro p _ r _ _
        simp only [scenarioWorld, exampleWorld]
        split <;> exact ⟨_, rfl⟩)).1,
    rfl⟩

end CheckUpstreamVersions
